import Mathlib

/-!
# ghbackup command line entry point (`main.go`)

A shallow embedding of `func main()` of the ghbackup binary and of the two
library calls whose results it depends on (`strings.Split` with the one byte
separator `","`, and `log.Logger` output), followed by theorems about the
configuration handed to `ghbackup.Run`, the text written to the standard
streams and the exit status.

Go strings are modelled by Lean strings.  The separator `,` is a single byte
that never occurs inside a multi-byte UTF-8 sequence, so cutting a string at the
character `,` and cutting it at the byte `0x2C` give the same fields.

The record `Flags` holds the flag values and the positional arguments that
`flag.Parse()` produces.  `main` is the body of `func main()` from the line after
`flag.Parse()` on; `Parse` is the flag package's parsing of `os.Args[1:]` for
the five flags defined at the top of `func main()`, with the `ExitOnError`
handling of the default flag set; `mainArgs` is the two in sequence, the whole
of `func main()`.
-/

namespace GhBackup

/-! ## strings.Split -/

/-- Go `strings.Count(s, sep)` for a one byte separator: the number of
occurrences of `sep` in `s`. -/
def Count : List Char → Char → Nat
  | [], _ => 0
  | x :: xs, sep => (if x = sep then 1 else 0) + Count xs sep

/-- Go `strings.IndexByte(s, c)` (what `strings.Index` does for a separator of
length one): the index of the first occurrence of `c`, or `-1`. -/
def IndexByte : List Char → Char → Int
  | [], _ => -1
  | x :: xs, c =>
    if x = c then 0
    else
      let r := IndexByte xs c
      if r < 0 then -1 else r + 1

/-- The loop of Go `genSplit` (with `sepSave = 0`, `len(sep) = 1`):
`for i < n { m := Index(s, sep); if m < 0 { break }; a[i] = s[:m]; s = s[m+1:]; i++ }`
followed by `a[i] = s; return a[:i+1]`.  The first argument is `n - i`, the
number of iterations still allowed; `a` holds the fields `a[0..i)` stored so far. -/
def genSplitLoop (sep : Char) : Nat → List Char → List (List Char) → List (List Char)
  | 0, s, a => a ++ [s]
  | k + 1, s, a =>
    let m := IndexByte s sep
    if m < 0 then a ++ [s]
    else genSplitLoop sep k (s.drop (m.toNat + 1)) (a ++ [s.take m.toNat])

/-- Go `genSplit(s, sep, 0, -1)` for a one byte separator: `n` is negative, so it
becomes `Count(s, sep) + 1`, is capped at `len(s) + 1`, and the loop runs with
`n - 1` iterations allowed. -/
def genSplit (s : List Char) (sep : Char) : List (List Char) :=
  let n := Count s sep + 1
  let n := if n > s.length + 1 then s.length + 1 else n
  genSplitLoop sep (n - 1) s []

/-- Go `strings.Split(s, sep)` for a one byte separator, `genSplit(s, sep, 0, -1)`. -/
def Split (s : String) (sep : Char) : List String :=
  (genSplit s.data sep).map String.mk

/-! ## Output streams and loggers -/

/-- The `io.Writer` values `main` constructs loggers on. -/
inductive Writer where
  | Stdout
  | Stderr
  | Discard
  deriving DecidableEq

/-- A `*log.Logger` as built by `log.New(out, prefix, flag)`. -/
structure Logger where
  out : Writer
  pfx : String
  flag : Nat
  deriving DecidableEq

/-- Go `log.New`. -/
def logNew (out : Writer) (pfx : String) (flag : Nat) : Logger :=
  { out := out, pfx := pfx, flag := flag }

/-- Go `ghbackup.Config` as filled in by `main`. -/
structure Config where
  Account : String
  Dir : String
  Skip : List String
  Secret : String
  Log : Logger
  Err : Logger
  deriving DecidableEq

/-- What the process has done so far: the text written to standard output and
to standard error, and the configurations `ghbackup.Run` was called with, in
call order. -/
structure World where
  stdout : String
  stderr : String
  runs : List Config
  deriving DecidableEq

/-- Writing `text` to a writer. -/
def Writer.write (o : Writer) (text : String) (w : World) : World :=
  match o with
  | .Stdout => { w with stdout := w.stdout ++ text }
  | .Stderr => { w with stderr := w.stderr ++ text }
  | .Discard => w

/-- Go `(*log.Logger).Output` with `flag = 0`: the prefix, the message, and a
newline when the message does not already end in one, in a single write. -/
def Logger.Output (l : Logger) (msg : String) (w : World) : World :=
  let nl := if msg.data.getLast? = some '\n' then "" else "\n"
  l.out.write (l.pfx ++ (msg ++ nl)) w

/-! ## ghbackup.Run as seen from main -/

/-- The two sinks of a `Config`. -/
inductive Sink where
  | Log
  | Err
  deriving DecidableEq

/-- One call of `ghbackup.Run` as `main` observes it: the messages it prints
through `Config.Log` and `Config.Err`, in order, and the error it returns
(`none` for `nil`, otherwise the text of `err.Error()`). -/
structure RunResult where
  lines : List (Sink × String)
  err : Option String
  deriving DecidableEq

/-- Printing the messages of a run through the loggers of its configuration. -/
def emit (c : Config) : List (Sink × String) → World → World
  | [], w => w
  | (.Log, msg) :: rest, w => emit c rest (c.Log.Output msg w)
  | (.Err, msg) :: rest, w => emit c rest (c.Err.Output msg w)

/-- The call `ghbackup.Run(c)`: the call is recorded, the messages are printed,
the error is returned. -/
def callRun (Run : Config → RunResult) (c : Config) (w : World) : Option String × World :=
  let r := Run c
  (r.err, emit c r.lines { w with runs := w.runs ++ [c] })

/-! ## main -/

/-- Values `main` reads but does not compute: `os.Args[0]`, the package variable
`version`, `runtime.GOOS`, `runtime.GOARCH`, the text `flag.PrintDefaults()`
writes to standard error, and the `%q` rendering of a string used in the flag
package's error messages. -/
structure Env where
  prog : String
  version : String
  goos : String
  goarch : String
  defaults : String
  quote : String → String

/-- The state `flag.Parse()` leaves behind: the five flag values and `flag.Args()`. -/
structure Flags where
  account : String
  secret : String
  skip : String
  versionFlag : Bool
  silent : Bool
  args : List String
  deriving DecidableEq

/-- The constant `usage` with `%s` filled in by `prog`. -/
def usage (prog : String) : String :=
  "Embarrassing simple GitHub backup tool\n\nUsage: " ++ prog ++
  " [flags] directory\n\n  directory  path to save the repositories to\n\n" ++
  "At least one of -account or -secret must be specified.\n\nFlags:\n"

/-- The constant `more`. -/
def more : String := "\nFor more visit https://qvl.io/ghbackup."

/-- The function assigned to `flag.Usage`:
`fmt.Fprintf(os.Stderr, usage, os.Args[0]); flag.PrintDefaults(); fmt.Fprintln(os.Stderr, more)`. -/
def flagUsage (env : Env) (w : World) : World :=
  let w := Writer.Stderr.write (usage env.prog) w
  let w := Writer.Stderr.write env.defaults w
  Writer.Stderr.write (more ++ "\n") w

/-- Func `main` after `flag.Parse()`.  The result is the exit status of the
process (`os.Exit(n)` gives `n`, returning from `main` gives `0`) and the world
it leaves behind. -/
def main (env : Env) (Run : Config → RunResult) (f : Flags) (w : World) : Nat × World :=
  if f.versionFlag then
    (0, Writer.Stdout.write
      ("ghbackup " ++ env.version ++ " " ++ env.goos ++ " " ++ env.goarch ++ "\n") w)
  else
    let args := f.args
    if h : args.length ≠ 1 ∨ (f.account = "" ∧ f.secret = "") then
      (1, flagUsage env w)
    else
      let logger := logNew Writer.Stdout "" 0
      let logger := if f.silent then logNew Writer.Discard "" 0 else logger
      let r := callRun Run
        { Account := f.account
          Dir := args.get ⟨0, by omega⟩
          Skip := Split f.skip ','
          Secret := f.secret
          Log := logger
          Err := logNew Writer.Stderr "" 0 } w
      match r.1 with
      | some e => (1, Writer.Stderr.write (e ++ "\n") r.2)
      | none => (0, r.2)

/-! ## flag.Parse -/

/-- The flags `func main()` defines with `flag.String` and `flag.Bool` (the
entries of the flag set's `formal` map). -/
inductive FlagName where
  | account
  | secret
  | skip
  | version
  | silent
  deriving DecidableEq

/-- Lookup of a flag name in the `formal` map. -/
def lookup (name : String) : Option FlagName :=
  if name = "account" then some FlagName.account
  else if name = "secret" then some FlagName.secret
  else if name = "skip" then some FlagName.skip
  else if name = "version" then some FlagName.version
  else if name = "silent" then some FlagName.silent
  else none

/-- Go `strconv.ParseBool`, `none` for an error. -/
def ParseBool (s : String) : Option Bool :=
  if s = "1" ∨ s = "t" ∨ s = "T" ∨ s = "TRUE" ∨ s = "true" ∨ s = "True" then some true
  else if s = "0" ∨ s = "f" ∨ s = "F" ∨ s = "FALSE" ∨ s = "false" ∨ s = "False" then some false
  else none

/-- Cutting at the first `=`: the part before it and, when there is one, the
part after it. -/
def cutEq : List Char → List Char × Option (List Char)
  | [] => ([], none)
  | c :: cs =>
    if c = '=' then ([], some cs)
    else
      let r := cutEq cs
      (c :: r.1, r.2)

/-- The loop `for i := 1; i < len(name); i++ { if name[i] == '=' { ... } }` of
`parseOne`: the flag name and the value after the first `=` that is not the
first character. -/
def nameValue (name : List Char) : List Char × Option (List Char) :=
  match name with
  | [] => ([], none)
  | c :: cs =>
    let r := cutEq cs
    (c :: r.1, r.2)

/-- The errors of `parseOne`: `ErrHelp`, or an error made by `failf` with the
given message. -/
inductive ParseErr where
  | ErrHelp
  | failf (msg : String)
  deriving DecidableEq

/-- Storing a value in a string flag (`stringValue.Set`). -/
def setString (n : FlagName) (v : String) (f : Flags) : Flags :=
  match n with
  | .account => { f with account := v }
  | .secret => { f with secret := v }
  | .skip => { f with skip := v }
  | _ => f

/-- Storing a value in a boolean flag (`boolValue.Set` after `ParseBool`). -/
def setBool (n : FlagName) (b : Bool) (f : Flags) : Flags :=
  match n with
  | .version => { f with versionFlag := b }
  | .silent => { f with silent := b }
  | _ => f

/-- The loop of Go `(*FlagSet).Parse` with the body of `parseOne` inlined, on
the remaining arguments and the flag values set so far.  An argument shorter
than two bytes or not starting with `-` ends the flags and stays in `Args()`;
`--` ends them and is dropped; a name that is empty or starts with `-` or `=`
is bad syntax; an undefined name is `ErrHelp` for `help` and `h` and an error
otherwise; a boolean flag takes a value only after `=`; a string flag takes
the text after `=` or else the next argument. -/
def parseLoop (env : Env) : List String → Flags → Except ParseErr Flags
  | [], f => .ok { f with args := [] }
  | s :: rest, f =>
    if s.data.length < 2 ∨ s.data.head? ≠ some '-' then .ok { f with args := s :: rest }
    else
      let numMinuses := if s.data[1]? = some '-' then 2 else 1
      if numMinuses = 2 ∧ s.data.length = 2 then .ok { f with args := rest }
      else
        let name := s.data.drop numMinuses
        if name.length = 0 ∨ name.head? = some '-' ∨ name.head? = some '=' then
          .error (.failf ("bad flag syntax: " ++ s))
        else
          let nv := nameValue name
          let name := String.mk nv.1
          match lookup name with
          | none =>
            if name = "help" ∨ name = "h" then .error .ErrHelp
            else .error (.failf ("flag provided but not defined: -" ++ name))
          | some n =>
            if n = FlagName.version ∨ n = FlagName.silent then
              match nv.2 with
              | some value =>
                match ParseBool (String.mk value) with
                | some b => parseLoop env rest (setBool n b f)
                | none =>
                  .error (.failf ("invalid boolean value " ++ env.quote (String.mk value) ++
                    " for -" ++ name ++ ": parse error"))
              | none => parseLoop env rest (setBool n true f)
            else
              match nv.2 with
              | some value => parseLoop env rest (setString n (String.mk value) f)
              | none =>
                match rest with
                | value :: rest2 => parseLoop env rest2 (setString n value f)
                | [] => .error (.failf ("flag needs an argument: -" ++ name))

/-- The call `flag.Parse()`, `CommandLine.Parse(os.Args[1:])`, started from the
defaults given at the definitions of the flags (`""` and `false`). -/
def Parse (env : Env) (arguments : List String) : Except ParseErr Flags :=
  parseLoop env arguments ⟨"", "", "", false, false, []⟩

/-- The whole of `func main()` on the arguments `os.Args[1:]`.  `flag.Parse()`
uses `ExitOnError`: on `ErrHelp` the usage function has been called and the
process exits with status 0; on an error made by `failf` the message and the
usage have been written to standard error and the process exits with status 2;
otherwise the rest of `main` runs on the parsed flags. -/
def mainArgs (env : Env) (Run : Config → RunResult) (arguments : List String) (w : World) :
    Nat × World :=
  match Parse env arguments with
  | .error .ErrHelp => (0, flagUsage env w)
  | .error (.failf msg) => (2, flagUsage env (Writer.Stderr.write (msg ++ "\n") w))
  | .ok f => main env Run f w

/-! ## Specification side -/

/-- Joining strings with a separator string between consecutive entries (the
behaviour of Go `strings.Join`). -/
def Join : List String → String → String
  | [], _ => ""
  | [a], _ => a
  | a :: b :: rest, sep => a ++ sep ++ Join (b :: rest) sep

/-- A command line that passes the argument check of `main`: no `-version`,
exactly one positional argument, and `-account` or `-secret` non-empty. -/
def Valid (f : Flags) : Prop :=
  f.versionFlag = false ∧ f.args.length = 1 ∧ (f.account ≠ "" ∨ f.secret ≠ "")

instance (f : Flags) : Decidable (Valid f) := by
  unfold Valid; exact inferInstance

/-- The fields of `s` between occurrences of `sep`, by recursion on `s`: the
reference description of what splitting at every separator produces. -/
def fields (sep : Char) : List Char → List (List Char)
  | [] => [[]]
  | c :: cs =>
    if c = sep then [] :: fields sep cs
    else
      match fields sep cs with
      | [] => [[c]]
      | g :: gs => (c :: g) :: gs

/-- Joining character lists with the separator `sep` between consecutive entries. -/
def joinL (sep : Char) : List (List Char) → List Char
  | [] => []
  | [a] => a
  | a :: b :: rest => a ++ sep :: joinL sep (b :: rest)

/-- The text a run's messages for sink `k` amount to once each is printed by a
logger with empty prefix and `flag = 0`. -/
def printed (k : Sink) : List (Sink × String) → String
  | [] => ""
  | (k2, msg) :: rest =>
    (if k2 = k then msg ++ (if msg.data.getLast? = some '\n' then "" else "\n") else "") ++
      printed k rest

/-- The string `s` has two adjacent occurrences of `sep`. -/
def Adjacent (sep : Char) (s : List Char) : Prop :=
  ∃ u v, s = u ++ sep :: sep :: v

/-! ## Sample inputs -/

/-- A sample environment for closed instances of the theorems. -/
def env0 : Env :=
  ⟨"ghbackup", "v1.0", "linux", "amd64", "  -account string\n", fun s => "\"" ++ s ++ "\""⟩

/-- The world before `main` has done anything. -/
def w0 : World := ⟨"", "", []⟩

/-- A run that prints one progress line and succeeds. -/
def runOk : Config → RunResult := fun _ => ⟨[(Sink.Log, "repo-c: cloned")], none⟩

/-- A run that prints a progress line and an error line and returns an error. -/
def runFail : Config → RunResult := fun _ =>
  ⟨[(Sink.Log, "repo-c: cloned"), (Sink.Err, "repo-d: clone failed")], some "1 errors"⟩

/-! ## Lemmas on splitting -/

theorem fields_ne_nil (sep : Char) (s : List Char) : fields sep s ≠ [] := by
  cases s with
  | nil => simp [fields]
  | cons c cs =>
    simp only [fields]
    split
    · simp
    · split <;> simp

theorem fields_of_not_mem (sep : Char) (s : List Char) (h : sep ∉ s) : fields sep s = [s] := by
  induction s with
  | nil => rfl
  | cons c cs ih =>
    simp only [List.mem_cons, not_or] at h
    have hc : c ≠ sep := fun e => h.1 e.symm
    simp [fields, hc, ih h.2]

theorem fields_append_sep (sep : Char) (p r : List Char) (h : sep ∉ p) :
    fields sep (p ++ sep :: r) = p :: fields sep r := by
  induction p with
  | nil => simp [fields]
  | cons c cs ih =>
    simp only [List.mem_cons, not_or] at h
    have hc : c ≠ sep := fun e => h.1 e.symm
    simp [fields, hc, ih h.2]

theorem Count_of_not_mem (sep : Char) (s : List Char) (h : sep ∉ s) : Count s sep = 0 := by
  induction s with
  | nil => rfl
  | cons c cs ih =>
    simp only [List.mem_cons, not_or] at h
    have hc : c ≠ sep := fun e => h.1 e.symm
    simp [Count, hc, ih h.2]

theorem Count_append_sep (sep : Char) (p r : List Char) (h : sep ∉ p) :
    Count (p ++ sep :: r) sep = Count r sep + 1 := by
  induction p with
  | nil => simp [Count]; omega
  | cons c cs ih =>
    simp only [List.mem_cons, not_or] at h
    have hc : c ≠ sep := fun e => h.1 e.symm
    simp [Count, hc, ih h.2]

theorem Count_le_length (sep : Char) (s : List Char) : Count s sep ≤ s.length := by
  induction s with
  | nil => simp [Count]
  | cons c cs ih =>
    simp only [Count, List.length_cons]
    split <;> omega

/-- What `IndexByte` returns: `-1` when `c` does not occur, otherwise the length
of the prefix before the first occurrence. -/
theorem IndexByte_spec (s : List Char) (c : Char) :
    (c ∉ s ∧ IndexByte s c = -1) ∨
    (∃ p r, s = p ++ c :: r ∧ c ∉ p ∧ IndexByte s c = (p.length : Int)) := by
  induction s with
  | nil => left; simp [IndexByte]
  | cons x xs ih =>
    by_cases hx : x = c
    · right
      exact ⟨[], xs, by simp [hx], by simp, by simp [IndexByte, hx]⟩
    · rcases ih with ⟨hn, hi⟩ | ⟨p, r, hs, hp, hi⟩
      · left
        refine ⟨by simp [hn, Ne.symm hx], ?_⟩
        simp [IndexByte, hx, hi]
      · right
        refine ⟨x :: p, r, by simp [hs], by simp [hp, Ne.symm hx], ?_⟩
        have : ¬ ((p.length : Int) < 0) := by omega
        simp [IndexByte, hx, hi, this]

theorem genSplitLoop_eq (sep : Char) :
    ∀ (k : Nat) (s : List Char) (a : List (List Char)), Count s sep ≤ k →
      genSplitLoop sep k s a = a ++ fields sep s := by
  intro k
  induction k with
  | zero =>
    intro s a h
    rcases IndexByte_spec s sep with ⟨hn, _⟩ | ⟨p, r, hs, hp, _⟩
    · simp [genSplitLoop, fields_of_not_mem sep s hn]
    · rw [hs, Count_append_sep sep p r hp] at h
      omega
  | succ k ih =>
    intro s a h
    rcases IndexByte_spec s sep with ⟨hn, hi⟩ | ⟨p, r, hs, hp, hi⟩
    · simp [genSplitLoop, hi, fields_of_not_mem sep s hn]
    · have hlt : ¬ ((p.length : Int) < 0) := by omega
      have hk : Count r sep ≤ k := by
        rw [hs, Count_append_sep sep p r hp] at h
        omega
      simp only [genSplitLoop, hi, hlt, if_false, Int.toNat_ofNat]
      rw [hs, fields_append_sep sep p r hp]
      have h1 : (p ++ sep :: r).drop (p.length + 1) = r := by
        rw [← List.drop_drop]; simp
      have h2 : (p ++ sep :: r).take p.length = p := by simp
      rw [h1, h2, ih r (a ++ [p]) hk]
      simp

theorem genSplit_eq_fields (s : List Char) (sep : Char) : genSplit s sep = fields sep s := by
  have h := Count_le_length sep s
  have hn : ¬ (Count s sep + 1 > s.length + 1) := by omega
  simp only [genSplit, hn, if_false]
  rw [genSplitLoop_eq sep _ s [] (by omega)]
  simp

theorem joinL_fields (sep : Char) (s : List Char) : joinL sep (fields sep s) = s := by
  induction s with
  | nil => rfl
  | cons c cs ih =>
    by_cases hc : c = sep
    · cases hf : fields sep cs with
      | nil => exact absurd hf (fields_ne_nil sep cs)
      | cons g gs =>
        rw [hf] at ih
        simp [fields, hc, hf, joinL, ih]
    · cases hf : fields sep cs with
      | nil => exact absurd hf (fields_ne_nil sep cs)
      | cons g gs =>
        rw [hf] at ih
        cases gs with
        | nil => simpa [fields, hc, hf, joinL] using ih
        | cons g2 gs2 => simpa [fields, hc, hf, joinL] using ih

theorem fields_no_sep (sep : Char) (s : List Char) : ∀ e ∈ fields sep s, sep ∉ e := by
  induction s with
  | nil => simp [fields]
  | cons c cs ih =>
    by_cases hc : c = sep
    · intro e he
      simp only [fields, hc, if_true, List.mem_cons] at he
      rcases he with rfl | he
      · simp
      · exact ih e he
    · cases hf : fields sep cs with
      | nil => exact absurd hf (fields_ne_nil sep cs)
      | cons g gs =>
        rw [hf] at ih
        intro e he
        simp only [fields, hc, if_false, hf, List.mem_cons] at he
        rcases he with rfl | he
        · have hg := ih g (by simp)
          simp [hg, Ne.symm hc]
        · exact ih e (by simp [he])

theorem fields_length (sep : Char) (s : List Char) :
    (fields sep s).length = Count s sep + 1 := by
  induction s with
  | nil => rfl
  | cons c cs ih =>
    by_cases hc : c = sep
    · simp [fields, hc, Count, ih]; omega
    · cases hf : fields sep cs with
      | nil => exact absurd hf (fields_ne_nil sep cs)
      | cons g gs =>
        rw [hf] at ih
        simp only [fields, hc, if_false, hf, Count]
        simpa using ih

theorem fields_joinL (sep : Char) (names : List (List Char)) (hne : names ≠ [])
    (hc : ∀ n ∈ names, sep ∉ n) : fields sep (joinL sep names) = names := by
  induction names with
  | nil => exact absurd rfl hne
  | cons a rest ih =>
    cases rest with
    | nil => simpa [joinL] using fields_of_not_mem sep a (hc a (by simp))
    | cons b rest2 =>
      have h1 := ih (by simp) (fun n hn => hc n (List.mem_cons_of_mem _ hn))
      simp only [joinL]
      rw [fields_append_sep sep a _ (hc a (by simp)), h1]

theorem Adjacent_nil (sep : Char) : ¬ Adjacent sep [] := by
  rintro ⟨u, v, h⟩
  cases u <;> simp at h

theorem Adjacent_cons (sep c : Char) (cs : List Char) :
    Adjacent sep (c :: cs) ↔ (c = sep ∧ cs.head? = some sep) ∨ Adjacent sep cs := by
  constructor
  · rintro ⟨u, v, h⟩
    cases u with
    | nil =>
      simp only [List.nil_append, List.cons.injEq] at h
      left
      exact ⟨h.1, by simp [h.2]⟩
    | cons x u2 =>
      simp only [List.cons_append, List.cons.injEq] at h
      right
      exact ⟨u2, v, h.2⟩
  · rintro (⟨h1, h2⟩ | ⟨u, v, h⟩)
    · cases cs with
      | nil => simp at h2
      | cons d ds =>
        simp only [List.head?_cons, Option.some.injEq] at h2
        exact ⟨[], ds, by simp [h1, h2]⟩
    · exact ⟨c :: u, v, by simp [h]⟩

/-- The first field is empty exactly when the string is empty or starts with
the separator. -/
theorem fields_head_nil (sep : Char) (s : List Char) :
    (fields sep s).head? = some [] ↔ s = [] ∨ s.head? = some sep := by
  cases s with
  | nil => simp [fields]
  | cons c cs =>
    by_cases hc : c = sep
    · simp [fields, hc]
    · cases hf : fields sep cs with
      | nil => exact absurd hf (fields_ne_nil sep cs)
      | cons g gs => simp [fields, hc, hf]

/-- A later field is empty exactly when the string ends with the separator or
has two adjacent separators. -/
theorem fields_tail_nil (sep : Char) (s : List Char) :
    [] ∈ (fields sep s).tail ↔ s.getLast? = some sep ∨ Adjacent sep s := by
  induction s with
  | nil => simp [fields, Adjacent_nil]
  | cons c cs ih =>
    rw [Adjacent_cons]
    cases hf : fields sep cs with
    | nil => exact absurd hf (fields_ne_nil sep cs)
    | cons g gs =>
      have hh := fields_head_nil sep cs
      rw [hf] at ih hh
      simp only [List.tail_cons, List.head?_cons, Option.some.injEq] at ih hh
      by_cases hc : c = sep
      · simp only [fields, hc, if_true, hf, List.tail_cons, List.mem_cons, true_and]
        rw [ih, eq_comm, hh]
        cases cs with
        | nil => simp
        | cons d ds => simp [List.getLast?_cons_cons]; tauto
      · simp only [fields, hc, if_false, hf, List.tail_cons, false_and, false_or]
        rw [ih]
        cases cs with
        | nil => simp [hc, Adjacent_nil]
        | cons d ds => simp [List.getLast?_cons_cons]

theorem nil_mem_fields (sep : Char) (s : List Char) :
    [] ∈ fields sep s ↔
      s = [] ∨ s.head? = some sep ∨ s.getLast? = some sep ∨ Adjacent sep s := by
  have h1 := fields_head_nil sep s
  have h2 := fields_tail_nil sep s
  cases hf : fields sep s with
  | nil => exact absurd hf (fields_ne_nil sep s)
  | cons g gs =>
    rw [hf] at h1 h2
    simp only [List.head?_cons, Option.some.injEq, List.tail_cons] at h1 h2
    simp only [List.mem_cons]
    rw [eq_comm, h1, h2]
    tauto

/-! ## Lifting to strings -/

theorem Split_eq_fields (s : String) (sep : Char) :
    Split s sep = (fields sep s.data).map String.mk := by
  simp [Split, genSplit_eq_fields]

theorem Join_data (l : List String) :
    (Join l ",").data = joinL ',' (l.map String.data) := by
  induction l with
  | nil => rfl
  | cons a rest ih =>
    cases rest with
    | nil => rfl
    | cons b rest2 =>
      simp only [Join, String.data_append, ih, List.map_cons, joinL]
      show a.data ++ [','] ++ _ = _
      simp

theorem map_data_map_mk (l : List (List Char)) : (l.map String.mk).map String.data = l := by
  induction l with
  | nil => rfl
  | cons a rest ih => rw [List.map_cons, List.map_cons, ih]

theorem map_mk_map_data (l : List String) : (l.map String.data).map String.mk = l := by
  induction l with
  | nil => rfl
  | cons a rest ih => rw [List.map_cons, List.map_cons, ih]

theorem Join_Split (s : String) : Join (Split s ',') "," = s := by
  apply String.ext
  rw [Join_data, Split_eq_fields, map_data_map_mk, joinL_fields]

theorem Split_no_sep (s : String) : ∀ e ∈ Split s ',', ',' ∉ e.data := by
  intro e he
  rw [Split_eq_fields, List.mem_map] at he
  obtain ⟨l, hl, rfl⟩ := he
  exact fields_no_sep ',' s.data l hl

theorem Split_length (s : String) : (Split s ',').length = Count s.data ',' + 1 := by
  rw [Split_eq_fields, List.length_map, fields_length]

theorem Split_Join (names : List String) (hne : names ≠ [])
    (hc : ∀ n ∈ names, ',' ∉ n.data) : Split (Join names ",") ',' = names := by
  rw [Split_eq_fields, Join_data, fields_joinL ',' _ (by simpa using hne), map_mk_map_data]
  intro n hn
  rw [List.mem_map] at hn
  obtain ⟨a, ha, rfl⟩ := hn
  exact hc a ha

theorem empty_mem_Split (s : String) :
    "" ∈ Split s ',' ↔
      s = "" ∨ s.data.head? = some ',' ∨ s.data.getLast? = some ',' ∨ Adjacent ',' s.data := by
  have hs : s = "" ↔ s.data = [] := String.ext_iff
  rw [Split_eq_fields, hs, ← nil_mem_fields, List.mem_map]
  constructor
  · rintro ⟨l, hl, h⟩
    have : l = [] := by
      have := congrArg String.data h
      simpa using this
    rw [← this]
    exact hl
  · intro h
    exact ⟨[], h, rfl⟩

/-! ## Lemmas on main -/

/-- The effect of one logger call with empty prefix on the three components of
the world. -/
theorem Output_fields (l : Logger) (hp : l.pfx = "") (msg : String) (w : World) :
    (l.Output msg w).runs = w.runs ∧
    (l.Output msg w).stdout =
      w.stdout ++ (if l.out = Writer.Stdout then
        msg ++ (if msg.data.getLast? = some '\n' then "" else "\n") else "") ∧
    (l.Output msg w).stderr =
      w.stderr ++ (if l.out = Writer.Stderr then
        msg ++ (if msg.data.getLast? = some '\n' then "" else "\n") else "") := by
  obtain ⟨o, pfx, fl⟩ := l
  simp only at hp
  subst hp
  cases o <;> simp [Logger.Output, Writer.write]

theorem emit_streams (c : Config) (hl : c.Log.pfx = "") (he : c.Err = logNew Writer.Stderr "" 0)
    (ho : c.Log.out = Writer.Stdout ∨ c.Log.out = Writer.Discard) :
    ∀ (ls : List (Sink × String)) (w : World),
      (emit c ls w).runs = w.runs ∧
      (emit c ls w).stdout =
        w.stdout ++ (if c.Log.out = Writer.Stdout then printed Sink.Log ls else "") ∧
      (emit c ls w).stderr = w.stderr ++ printed Sink.Err ls := by
  intro ls
  induction ls with
  | nil => intro w; simp [emit, printed]
  | cons x rest ih =>
    intro w
    obtain ⟨k, msg⟩ := x
    cases k with
    | Log =>
      obtain ⟨h1, h2, h3⟩ := ih (c.Log.Output msg w)
      obtain ⟨g1, g2, g3⟩ := Output_fields c.Log hl msg w
      have e : emit c ((Sink.Log, msg) :: rest) w = emit c rest (c.Log.Output msg w) := rfl
      rw [e, h1, h2, h3, g1, g2, g3]
      rcases ho with ho | ho <;> simp [ho, printed, String.append_assoc]
    | Err =>
      obtain ⟨h1, h2, h3⟩ := ih (c.Err.Output msg w)
      obtain ⟨g1, g2, g3⟩ := Output_fields c.Err (by rw [he]; rfl) msg w
      have e : emit c ((Sink.Err, msg) :: rest) w = emit c rest (c.Err.Output msg w) := rfl
      have hout : c.Err.out = Writer.Stderr := by rw [he]; rfl
      rw [e, h1, h2, h3, g1, g2, g3]
      simp [hout, printed, String.append_assoc]

/-- Unfolding of `main` on a command line that passes the argument check. -/
theorem main_eq_of_valid (env : Env) (Run : Config → RunResult) (f : Flags) (w : World)
    (d : String) (hv : f.versionFlag = false) (ha : f.args = [d])
    (hs : f.account ≠ "" ∨ f.secret ≠ "") (c : Config)
    (hc : c = ⟨f.account, d, Split f.skip ',', f.secret,
      logNew (if f.silent then Writer.Discard else Writer.Stdout) "" 0,
      logNew Writer.Stderr "" 0⟩) :
    main env Run f w =
      match (Run c).err with
      | some e =>
        (1, Writer.Stderr.write (e ++ "\n") (emit c (Run c).lines { w with runs := w.runs ++ [c] }))
      | none => (0, emit c (Run c).lines { w with runs := w.runs ++ [c] }) := by
  have hcond : ¬ (f.args.length ≠ 1 ∨ (f.account = "" ∧ f.secret = "")) := by
    rw [ha]
    simp only [List.length_singleton, ne_eq, not_true_eq_false, false_or, not_and]
    intro h1 h2
    rcases hs with h | h
    · exact h h1
    · exact h h2
  obtain ⟨account, secret, skip, vflag, silent, args⟩ := f
  simp only at ha hv hs hcond hc
  subst ha
  subst hv
  subst hc
  simp only [main, Bool.false_eq_true, if_false, dif_neg hcond]
  cases silent <;> rfl

/-- What `main` does on a command line that passes the argument check: one call
of `Run`, the exit status, and the text added to the two standard streams. -/
theorem main_of_valid (env : Env) (Run : Config → RunResult) (f : Flags) (w : World)
    (d : String) (hv : f.versionFlag = false) (ha : f.args = [d])
    (hs : f.account ≠ "" ∨ f.secret ≠ "") :
    ∃ c : Config,
      c = ⟨f.account, d, Split f.skip ',', f.secret,
        logNew (if f.silent then Writer.Discard else Writer.Stdout) "" 0,
        logNew Writer.Stderr "" 0⟩ ∧
      (main env Run f w).2.runs = w.runs ++ [c] ∧
      (main env Run f w).1 = (if (Run c).err = none then 0 else 1) ∧
      (main env Run f w).2.stdout =
        w.stdout ++ (if f.silent then "" else printed Sink.Log (Run c).lines) ∧
      (main env Run f w).2.stderr =
        w.stderr ++ printed Sink.Err (Run c).lines ++
          (match (Run c).err with
           | some e => e ++ "\n"
           | none => "") := by
  refine ⟨_, rfl, ?_⟩
  generalize hc : (⟨f.account, d, Split f.skip ',', f.secret,
    logNew (if f.silent then Writer.Discard else Writer.Stdout) "" 0,
    logNew Writer.Stderr "" 0⟩ : Config) = c
  rw [main_eq_of_valid env Run f w d hv ha hs c hc.symm]
  have hl : c.Log.pfx = "" := by rw [← hc]; rfl
  have he : c.Err = logNew Writer.Stderr "" 0 := by rw [← hc]
  have ho : c.Log.out = (if f.silent then Writer.Discard else Writer.Stdout) := by
    rw [← hc]; rfl
  have ho2 : c.Log.out = Writer.Stdout ∨ c.Log.out = Writer.Discard := by
    rw [ho]; cases f.silent <;> simp
  obtain ⟨h1, h2, h3⟩ := emit_streams c hl he ho2 (Run c).lines
    { w with runs := w.runs ++ [c] }
  cases herr : (Run c).err with
  | none =>
    simp only [h1, h2, h3, ho]
    cases f.silent <;> simp
  | some e =>
    simp only [h1, h2, h3, ho, Writer.write]
    cases f.silent <;> simp [String.append_assoc]

/-- Unfolding of `main` on a command line that fails the argument check. -/
theorem main_of_invalid (env : Env) (Run : Config → RunResult) (f : Flags) (w : World)
    (hv : f.versionFlag = false)
    (h : ¬ (f.args.length = 1 ∧ (f.account ≠ "" ∨ f.secret ≠ ""))) :
    main env Run f w =
      (1, { w with stderr := w.stderr ++ (usage env.prog ++ (env.defaults ++ (more ++ "\n"))) }) := by
  have hcond : f.args.length ≠ 1 ∨ (f.account = "" ∧ f.secret = "") := by
    by_cases h1 : f.args.length = 1
    · right
      by_cases h2 : f.account = ""
      · by_cases h3 : f.secret = ""
        · exact ⟨h2, h3⟩
        · exact absurd ⟨h1, Or.inr h3⟩ h
      · exact absurd ⟨h1, Or.inl h2⟩ h
    · left; exact h1
  simp only [main, hv, Bool.false_eq_true, if_false, dif_pos hcond, flagUsage, Writer.write,
    String.append_assoc]

theorem args_of_valid (f : Flags) (h : Valid f) : ∃ d, f.args = [d] := by
  obtain ⟨_, hl, _⟩ := h
  match hf : f.args, hl with
  | [d], _ => exact ⟨d, rfl⟩

theorem ne_append_singleton (l : List Config) (c : Config) : l ≠ l ++ [c] := by
  intro h
  have := congrArg List.length h
  simp at this

/-- When `flag.Parse()` accepts the command line, the process is the rest of
`main` on the parsed flags. -/
theorem mainArgs_of_parsed (env : Env) (Run : Config → RunResult) (arguments : List String)
    (f : Flags) (w : World) (hp : Parse env arguments = Except.ok f) :
    mainArgs env Run arguments w = main env Run f w := by
  simp only [mainArgs, hp]

/-- When `flag.Parse()` rejects the command line, `Run` is not called, standard
output is untouched, and the exit status is 0 for `ErrHelp` and 2 otherwise. -/
theorem mainArgs_of_parse_error (env : Env) (Run : Config → RunResult)
    (arguments : List String) (e : ParseErr) (w : World)
    (hp : Parse env arguments = Except.error e) :
    (mainArgs env Run arguments w).2.runs = w.runs ∧
    (mainArgs env Run arguments w).2.stdout = w.stdout ∧
    (mainArgs env Run arguments w).1 = (if e = ParseErr.ErrHelp then 0 else 2) := by
  cases e with
  | ErrHelp => simp [mainArgs, hp, flagUsage, Writer.write]
  | failf msg => simp [mainArgs, hp, flagUsage, Writer.write]

/-! ## Theorems on main -/

/-- C1 as stated fails: `ghbackup -h -account octocat backup` does not call
`Run` and exits with status 0, and `ghbackup -bogus -account octocat backup`
does not call `Run` and exits with status 2; neither exits with status 1. -/
theorem help_and_undefined_flag_do_not_exit_one :
    (mainArgs env0 runOk ["-h", "-account", "octocat", "backup"] w0).2.runs = w0.runs ∧
    (mainArgs env0 runOk ["-h", "-account", "octocat", "backup"] w0).1 = 0 ∧
    (mainArgs env0 runOk ["-h", "-account", "octocat", "backup"] w0).1 ≠ 1 ∧
    (mainArgs env0 runOk ["-bogus", "-account", "octocat", "backup"] w0).2.runs = w0.runs ∧
    (mainArgs env0 runOk ["-bogus", "-account", "octocat", "backup"] w0).1 = 2 ∧
    (mainArgs env0 runOk ["-bogus", "-account", "octocat", "backup"] w0).1 ≠ 1 := by
  decide

/-- C1, amended: for every command line that `flag.Parse()` accepts and that
does not set `-version`, `Run` is called (exactly once) if and only if there is
exactly one positional argument and `-account` or `-secret` is non-empty; in
every other such case the process writes the usage text to standard error,
exits with status 1, and leaves standard output and the record of `Run` calls
untouched. -/
theorem parsed_invocation_calls_Run_iff_valid (env : Env) (Run : Config → RunResult)
    (arguments : List String) (f : Flags) (w : World)
    (hp : Parse env arguments = Except.ok f) (hv : f.versionFlag = false) :
    ((∃ c, (mainArgs env Run arguments w).2.runs = w.runs ++ [c]) ↔
      (f.args.length = 1 ∧ (f.account ≠ "" ∨ f.secret ≠ ""))) ∧
    (¬ (f.args.length = 1 ∧ (f.account ≠ "" ∨ f.secret ≠ "")) →
      mainArgs env Run arguments w =
        (1, { w with
              stderr := w.stderr ++ (usage env.prog ++ (env.defaults ++ (more ++ "\n"))) })) := by
  rw [mainArgs_of_parsed env Run arguments f w hp]
  refine ⟨⟨?_, ?_⟩, main_of_invalid env Run f w hv⟩
  · rintro ⟨c, hc⟩
    by_contra hn
    rw [main_of_invalid env Run f w hv hn] at hc
    exact ne_append_singleton w.runs c hc
  · intro hval
    obtain ⟨d, hd⟩ := args_of_valid f ⟨hv, hval⟩
    obtain ⟨c, _, hr, _⟩ := main_of_valid env Run f w d hv hd hval.2
    exact ⟨c, hr⟩

/-- C1, amended, at two command lines: `ghbackup -account octocat backup` calls
`Run` once; `ghbackup backup`, with neither `-account` nor `-secret`, writes the
usage to standard error and exits with status 1 without calling `Run`. -/
theorem parsed_invocation_calls_Run_iff_valid_witness :
    (∃ c, (mainArgs env0 runOk ["-account", "octocat", "backup"] w0).2.runs = w0.runs ++ [c]) ∧
    mainArgs env0 runOk ["backup"] w0 =
      (1, { w0 with
            stderr := w0.stderr ++ (usage env0.prog ++ (env0.defaults ++ (more ++ "\n"))) }) :=
  ⟨(parsed_invocation_calls_Run_iff_valid env0 runOk ["-account", "octocat", "backup"]
      ⟨"octocat", "", "", false, false, ["backup"]⟩ w0 rfl rfl).1.2 (by decide),
   (parsed_invocation_calls_Run_iff_valid env0 runOk ["backup"]
      ⟨"", "", "", false, false, ["backup"]⟩ w0 rfl rfl).2 (by decide)⟩

/-- C2 as stated fails: with `-skip` left at its default `""` the list passed to
`Run` is `[""]`, so the empty name is a member of it. -/
theorem empty_skip_has_empty_entry :
    (main env0 runOk ⟨"octocat", "", "", false, false, ["backup"]⟩ w0).2.runs.map Config.Skip =
      [[""]] ∧
    ¬ (∀ n : String,
        ∀ c ∈ (main env0 runOk ⟨"octocat", "", "", false, false, ["backup"]⟩ w0).2.runs,
          n ∉ c.Skip) := by
  constructor
  · decide
  · intro h
    have hr : (main env0 runOk ⟨"octocat", "", "", false, false, ["backup"]⟩ w0).2.runs =
        [⟨"octocat", "backup", [""], "", logNew Writer.Stdout "" 0,
          logNew Writer.Stderr "" 0⟩] := by decide
    have hmem := h "" ⟨"octocat", "backup", [""], "", logNew Writer.Stdout "" 0,
      logNew Writer.Stderr "" 0⟩ (by rw [hr]; exact List.mem_singleton.2 rfl)
    exact hmem (List.mem_singleton.2 rfl)

/-- C2, amended: when `-skip` is the empty string, no non-empty repository name
is a member of the `Config.Skip` that `main` passes to `Run`. -/
theorem empty_skip_excludes_no_nonempty_name (env : Env) (Run : Config → RunResult)
    (f : Flags) (w : World) (hvalid : Valid f) (hs : f.skip = "") :
    ∃ c, (main env Run f w).2.runs = w.runs ++ [c] ∧ ∀ n : String, n ≠ "" → n ∉ c.Skip := by
  obtain ⟨d, hd⟩ := args_of_valid f hvalid
  obtain ⟨c, hc, hr, _⟩ := main_of_valid env Run f w d hvalid.1 hd hvalid.2.2
  refine ⟨c, hr, ?_⟩
  intro n hn hmem
  have hsk : c.Skip = [""] := by
    rw [hc]
    show Split f.skip ',' = [""]
    rw [hs]
    decide
  rw [hsk, List.mem_singleton] at hmem
  exact hn hmem

/-- C2, amended, at `ghbackup -account octocat backup`. -/
theorem empty_skip_excludes_no_nonempty_name_witness :
    ∃ c, (main env0 runOk ⟨"octocat", "", "", false, false, ["backup"]⟩ w0).2.runs =
        w0.runs ++ [c] ∧ ∀ n : String, n ≠ "" → n ∉ c.Skip :=
  empty_skip_excludes_no_nonempty_name env0 runOk ⟨"octocat", "", "", false, false, ["backup"]⟩
    w0 (by decide) rfl

/-- C3: for a non-empty list of names without commas, passing their comma-joined
string as `-skip` makes `main` call `Run` with `Config.Skip` equal to that list,
in order; so a name is a member of `Config.Skip` iff it is one of the names. -/
theorem skip_of_joined_names (env : Env) (Run : Config → RunResult) (f : Flags) (w : World)
    (names : List String) (hvalid : Valid f) (hne : names ≠ [])
    (hcomma : ∀ n ∈ names, ',' ∉ n.data) (hs : f.skip = Join names ",") :
    ∃ c, (main env Run f w).2.runs = w.runs ++ [c] ∧ c.Skip = names ∧
      ∀ n, n ∈ c.Skip ↔ n ∈ names := by
  obtain ⟨d, hd⟩ := args_of_valid f hvalid
  obtain ⟨c, hc, hr, _⟩ := main_of_valid env Run f w d hvalid.1 hd hvalid.2.2
  have hsk : c.Skip = names := by
    rw [hc]
    show Split f.skip ',' = names
    rw [hs, Split_Join names hne hcomma]
  exact ⟨c, hr, hsk, fun n => by rw [hsk]⟩

/-- C3 at `-skip repo-a,repo-b`: the list is `["repo-a", "repo-b"]`, and of
`repo-a`, `repo-b`, `repo-c` only `repo-c` is not a member. -/
theorem skip_of_joined_names_witness :
    ∃ c, (main env0 runOk ⟨"octocat", "", "repo-a,repo-b", false, false, ["backup"]⟩ w0).2.runs =
        w0.runs ++ [c] ∧
      c.Skip = ["repo-a", "repo-b"] ∧ "repo-a" ∈ c.Skip ∧ "repo-b" ∈ c.Skip ∧
      "repo-c" ∉ c.Skip := by
  obtain ⟨c, hr, hsk, _⟩ := skip_of_joined_names env0 runOk
    ⟨"octocat", "", "repo-a,repo-b", false, false, ["backup"]⟩ w0 ["repo-a", "repo-b"]
    (by decide) (by decide) (by decide) (by decide)
  refine ⟨c, hr, hsk, ?_, ?_, ?_⟩ <;> rw [hsk] <;> decide

/-- C4: on a command line that passes the argument check the exit status is 1 if
and only if `Run` returns an error, and then the error text and a newline are
the last thing written to standard error; when `Run` returns no error the
status is 0. -/
theorem exit_status_iff_Run_error (env : Env) (Run : Config → RunResult) (f : Flags)
    (w : World) (hvalid : Valid f) :
    ∃ c, (main env Run f w).2.runs = w.runs ++ [c] ∧
      ((main env Run f w).1 = 1 ↔ (Run c).err ≠ none) ∧
      ((Run c).err = none → (main env Run f w).1 = 0) ∧
      (∀ e, (Run c).err = some e →
        (main env Run f w).2.stderr =
          w.stderr ++ printed Sink.Err (Run c).lines ++ (e ++ "\n")) := by
  obtain ⟨d, hd⟩ := args_of_valid f hvalid
  obtain ⟨c, _, hr, hst, _, herr⟩ := main_of_valid env Run f w d hvalid.1 hd hvalid.2.2
  refine ⟨c, hr, ?_, ?_, ?_⟩
  · rw [hst]
    by_cases hn : (Run c).err = none <;> simp [hn]
  · intro hn
    rw [hst, if_pos hn]
  · intro e he
    rw [herr, he]

/-- C4 at a run that returns the error `1 errors`: status 1, and standard error
ends with the error text. -/
theorem exit_status_iff_Run_error_witness :
    (main env0 runFail ⟨"octocat", "", "", false, false, ["backup"]⟩ w0).1 = 1 ∧
    (main env0 runFail ⟨"octocat", "", "", false, false, ["backup"]⟩ w0).2.stderr =
      "repo-d: clone failed\n1 errors\n" := by
  obtain ⟨c, _, hiff, _, herr⟩ := exit_status_iff_Run_error env0 runFail
    ⟨"octocat", "", "", false, false, ["backup"]⟩ w0 (by decide)
  refine ⟨hiff.2 (by simp [runFail]), ?_⟩
  rw [herr "1 errors" rfl]
  rfl

/-- C5 fails on the code: with `-silent`, a run that prints through its error
sink and returns an error leaves both texts on standard error and the process
exits with status 1; only standard output stays empty. -/
theorem silent_run_still_writes_stderr :
    (main env0 runFail ⟨"octocat", "", "", false, true, ["backup"]⟩ w0).1 = 1 ∧
    (main env0 runFail ⟨"octocat", "", "", false, true, ["backup"]⟩ w0).2.stdout = "" ∧
    (main env0 runFail ⟨"octocat", "", "", false, true, ["backup"]⟩ w0).2.stderr =
      "repo-d: clone failed\n1 errors\n" := by
  decide

/-- C6: on a command line that passes the argument check `Run` is called exactly
once, with `Account`, `Secret` and `Dir` equal to the `-account` value, the
`-secret` value and the single positional argument; `Account` is empty exactly
when only a secret was given. -/
theorem config_carries_command_line (env : Env) (Run : Config → RunResult) (f : Flags)
    (w : World) (hvalid : Valid f) :
    ∃ c, (main env Run f w).2.runs = w.runs ++ [c] ∧
      c.Account = f.account ∧ c.Secret = f.secret ∧ f.args = [c.Dir] ∧
      (c.Account = "" ↔ (f.account = "" ∧ f.secret ≠ "")) := by
  obtain ⟨d, hd⟩ := args_of_valid f hvalid
  obtain ⟨c, hc, hr, _⟩ := main_of_valid env Run f w d hvalid.1 hd hvalid.2.2
  have ha : c.Account = f.account := by rw [hc]
  have hse : c.Secret = f.secret := by rw [hc]
  have hdir : c.Dir = d := by rw [hc]
  refine ⟨c, hr, ha, hse, by rw [hdir, hd], ?_⟩
  rw [ha]
  constructor
  · intro h
    rcases hvalid.2.2 with h1 | h1
    · exact absurd h h1
    · exact ⟨h, h1⟩
  · exact fun h => h.1

/-- C6 at `ghbackup -secret s3cr3t " my dir/"`: the directory is passed with its
blanks and trailing slash, and `Account` is empty. -/
theorem config_carries_command_line_witness :
    ∃ c, (main env0 runOk ⟨"", "s3cr3t", "", false, false, [" my dir/"]⟩ w0).2.runs =
        w0.runs ++ [c] ∧
      c.Account = "" ∧ c.Secret = "s3cr3t" ∧ c.Dir = " my dir/" := by
  obtain ⟨c, hr, ha, hs, hd, _⟩ := config_carries_command_line env0 runOk
    ⟨"", "s3cr3t", "", false, false, [" my dir/"]⟩ w0 (by decide)
  refine ⟨c, hr, ha, hs, ?_⟩
  simp only [List.cons.injEq, and_true] at hd
  exact hd.symm

/-- C7: on a command line that passes the argument check the two sinks given to
`Run` have different destinations: `Config.Log` writes to standard output (to
the discarding writer under `-silent`), `Config.Err` writes to standard error.
A message printed through `Config.Log` never changes standard error, one printed
through `Config.Err` never changes standard output; after `main`, standard
output holds the progress messages only and standard error holds the error
messages followed by the returned error, if any. -/
theorem sinks_are_separate (env : Env) (Run : Config → RunResult) (f : Flags) (w : World)
    (hvalid : Valid f) :
    ∃ c, (main env Run f w).2.runs = w.runs ++ [c] ∧
      c.Log.out = (if f.silent then Writer.Discard else Writer.Stdout) ∧
      c.Err.out = Writer.Stderr ∧
      c.Log.out ≠ c.Err.out ∧
      (∀ msg v, (c.Log.Output msg v).stderr = v.stderr) ∧
      (∀ msg v, (c.Err.Output msg v).stdout = v.stdout) ∧
      (main env Run f w).2.stdout =
        w.stdout ++ (if f.silent then "" else printed Sink.Log (Run c).lines) ∧
      (main env Run f w).2.stderr =
        w.stderr ++ printed Sink.Err (Run c).lines ++
          (match (Run c).err with
           | some e => e ++ "\n"
           | none => "") := by
  obtain ⟨d, hd⟩ := args_of_valid f hvalid
  obtain ⟨c, hc, hr, _, hout, herr⟩ := main_of_valid env Run f w d hvalid.1 hd hvalid.2.2
  have hlo : c.Log.out = (if f.silent then Writer.Discard else Writer.Stdout) := by
    rw [hc]; rfl
  have heo : c.Err.out = Writer.Stderr := by rw [hc]; rfl
  have hlp : c.Log.pfx = "" := by rw [hc]; rfl
  have hep : c.Err.pfx = "" := by rw [hc]; rfl
  have hne : c.Log.out ≠ Writer.Stderr := by
    rw [hlo]; cases f.silent <;> simp
  refine ⟨c, hr, hlo, heo, by rw [heo]; exact hne, ?_, ?_, hout, herr⟩
  · intro msg v
    rw [(Output_fields c.Log hlp msg v).2.2, if_neg hne, String.append_empty]
  · intro msg v
    rw [(Output_fields c.Err hep msg v).2.1, heo]
    simp

/-- C7 at a run that prints one progress line and one error line and fails. -/
theorem sinks_are_separate_witness :
    (main env0 runFail ⟨"octocat", "", "", false, false, ["backup"]⟩ w0).2.stdout =
      "repo-c: cloned\n" ∧
    (main env0 runFail ⟨"octocat", "", "", false, false, ["backup"]⟩ w0).2.stderr =
      "repo-d: clone failed\n1 errors\n" := by
  obtain ⟨c, _, _, _, _, _, _, hout, herr⟩ := sinks_are_separate env0 runFail
    ⟨"octocat", "", "", false, false, ["backup"]⟩ w0 (by decide)
  exact ⟨hout.trans rfl, herr.trans rfl⟩

/-- C8: the split that builds `Config.Skip` loses nothing, for every `-skip`
string: joining the entries with `","` gives the string back, no entry contains
a comma, and there are (number of commas) + 1 entries. -/
theorem skip_split_lossless (env : Env) (Run : Config → RunResult) (f : Flags) (w : World)
    (hvalid : Valid f) :
    ∃ c, (main env Run f w).2.runs = w.runs ++ [c] ∧
      Join c.Skip "," = f.skip ∧
      (∀ e ∈ c.Skip, ',' ∉ e.data) ∧
      c.Skip.length = Count f.skip.data ',' + 1 := by
  obtain ⟨d, hd⟩ := args_of_valid f hvalid
  obtain ⟨c, hc, hr, _⟩ := main_of_valid env Run f w d hvalid.1 hd hvalid.2.2
  have hsk : c.Skip = Split f.skip ',' := by rw [hc]
  refine ⟨c, hr, ?_, ?_, ?_⟩
  · rw [hsk, Join_Split]
  · rw [hsk]; exact Split_no_sep f.skip
  · rw [hsk, Split_length]

/-- C8 at `-skip " Repo-A ,,repo-b"`: blanks, capitals and the empty field are
kept. -/
theorem skip_split_lossless_witness :
    ∃ c, (main env0 runOk ⟨"octocat", "", " Repo-A ,,repo-b", false, false, ["backup"]⟩
        w0).2.runs = w0.runs ++ [c] ∧
      Join c.Skip "," = " Repo-A ,,repo-b" ∧ c.Skip.length = 3 := by
  obtain ⟨c, hr, hj, _, hl⟩ := skip_split_lossless env0 runOk
    ⟨"octocat", "", " Repo-A ,,repo-b", false, false, ["backup"]⟩ w0 (by decide)
  exact ⟨c, hr, hj, hl.trans (by decide)⟩

/-- C9: the empty string is an entry of `Config.Skip` if and only if the `-skip`
string is empty, begins with a comma, ends with a comma, or has two adjacent
commas; for every other `-skip` string no entry of `Config.Skip` is empty. -/
theorem skip_empty_entry_iff (env : Env) (Run : Config → RunResult) (f : Flags) (w : World)
    (hvalid : Valid f) :
    ∃ c, (main env Run f w).2.runs = w.runs ++ [c] ∧
      ("" ∈ c.Skip ↔
        f.skip = "" ∨ f.skip.data.head? = some ',' ∨ f.skip.data.getLast? = some ',' ∨
          Adjacent ',' f.skip.data) ∧
      (¬ (f.skip = "" ∨ f.skip.data.head? = some ',' ∨ f.skip.data.getLast? = some ',' ∨
          Adjacent ',' f.skip.data) → ∀ e ∈ c.Skip, e ≠ "") := by
  obtain ⟨d, hd⟩ := args_of_valid f hvalid
  obtain ⟨c, hc, hr, _⟩ := main_of_valid env Run f w d hvalid.1 hd hvalid.2.2
  have hsk : c.Skip = Split f.skip ',' := by rw [hc]
  have hiff := empty_mem_Split f.skip
  rw [← hsk] at hiff
  refine ⟨c, hr, hiff, ?_⟩
  intro hn e he hemp
  rw [hemp] at he
  exact hn (hiff.1 he)

/-- C9 at `-skip repo-a,,repo-b`, which has two adjacent commas: the empty
string is an entry. -/
theorem skip_empty_entry_iff_witness :
    ∃ c, (main env0 runOk ⟨"octocat", "", "repo-a,,repo-b", false, false, ["backup"]⟩
        w0).2.runs = w0.runs ++ [c] ∧ "" ∈ c.Skip := by
  obtain ⟨c, hr, hiff, _⟩ := skip_empty_entry_iff env0 runOk
    ⟨"octocat", "", "repo-a,,repo-b", false, false, ["backup"]⟩ w0 (by decide)
  exact ⟨c, hr, hiff.2 (Or.inr (Or.inr (Or.inr ⟨"repo-a".data, "repo-b".data, rfl⟩)))⟩

end GhBackup
